import Mathlib

/-! Verification of the dungeon-explorer map generator: a shallow embedding of
`src/rect.rs`, `src/kd_tree.rs` and `src/map_gen.rs`, with proofs of the
specification's claims about them. -/

namespace Dungeon

/-- `Rect` (`src/rect.rs`): an axis-aligned rectangle with corner points
`min = (minx, miny)` and `max = (maxx, maxy)`. The `i32` coordinates are
modelled as unbounded integers; every value arising in the program is far from
`i32` overflow. -/
structure Rect where
  minx : Int
  miny : Int
  maxx : Int
  maxy : Int
deriving DecidableEq

/-- `Rect::overlaps`. -/
def Rect.overlaps (a b : Rect) : Bool :=
  decide (a.minx < b.maxx) && decide (a.maxx > b.minx) &&
    decide (a.miny < b.maxy) && decide (a.maxy > b.miny)

/-- `Rect::is_lex_less`: the source iterates over the zipped coordinate
sequence `(min.x, min.y, max.x, max.y)` of the two rectangles, returning at the
first strictly ordered pair and `false` when the loop ends; this is that loop
unrolled over the four coordinates (the comparison on `i32` never returns the
incomparable case). -/
def Rect.is_lex_less (a b : Rect) : Bool :=
  if a.minx < b.minx then true
  else if b.minx < a.minx then false
  else if a.miny < b.miny then true
  else if b.miny < a.miny then false
  else if a.maxx < b.maxx then true
  else if b.maxx < a.maxx then false
  else if a.maxy < b.maxy then true
  else if b.maxy < a.maxy then false
  else false

/-- `Rect::is_dim_less`. The final catch-all models the source's unreachable
branch for `dim ≥ 4` (every call site keeps `dim < 4`). -/
def Rect.is_dim_less (a b : Rect) (dim : Nat) : Bool :=
  let pair : Int × Int :=
    match dim with
    | 0 => (a.minx, b.minx)
    | 1 => (a.miny, b.miny)
    | 2 => (a.maxx, b.maxx)
    | 3 => (a.maxy, b.maxy)
    | _ => (0, 0)
  if pair.1 < pair.2 then true
  else if pair.2 < pair.1 then false
  else a.is_lex_less b

/-- `rect.min[i]` for `i ∈ {0, 1}` (the `x` resp. `y` coordinate of `min`). -/
def Rect.minCoord (r : Rect) (i : Nat) : Int :=
  match i with
  | 0 => r.minx
  | _ => r.miny

/-- `rect.max[i]` for `i ∈ {0, 1}` (the `x` resp. `y` coordinate of `max`). -/
def Rect.maxCoord (r : Rect) (i : Nat) : Int :=
  match i with
  | 0 => r.maxx
  | _ => r.maxy

/-- The KD-tree of `src/kd_tree.rs`. `empty` stands both for `KDTree::Empty`
and for an absent child (`None`); `node l r rect` is a `TreeNode` with
optional children `l`, `r` and payload `rect`. -/
inductive KDTree where
  | empty : KDTree
  | node (left : KDTree) (right : KDTree) (rect : Rect) : KDTree
deriving DecidableEq

/-- `TreeNode::add_rect` (together with the `KDTree::Empty` case of
`KDTree::add_rect`): descend on `is_dim_less`, cycling the dimension modulo 4,
and create a fresh leaf node at the first absent child. -/
def KDTree.add_rect_aux : KDTree → Rect → Nat → KDTree
  | .empty, r, _ => .node .empty .empty r
  | .node l rt rect, r, currDim =>
    let nextDim := (currDim + 1) % 4
    if r.is_dim_less rect currDim then
      .node (l.add_rect_aux r nextDim) rt rect
    else
      .node l (rt.add_rect_aux r nextDim) rect

/-- `KDTree::add_rect`: insertion starts at dimension 0. -/
def KDTree.add_rect (t : KDTree) (r : Rect) : KDTree :=
  t.add_rect_aux r 0

/-- `TreeNode::overlaps` (with `false` for an absent child, as in the
source's `map_or(false, ...)`). The final catch-all models the unreachable
branch for `currDim ≥ 4`. -/
def KDTree.overlaps_aux : KDTree → Rect → Nat → Bool
  | .empty, _, _ => false
  | .node l rt rect, q, currDim =>
    if rect.overlaps q then true
    else
      let nextDim := (currDim + 1) % 4
      match currDim with
      | 0 =>
        if l.overlaps_aux q nextDim then true
        else if q.maxCoord 0 < rect.minCoord 0 then false
        else rt.overlaps_aux q nextDim
      | 1 =>
        if l.overlaps_aux q nextDim then true
        else if q.maxCoord 1 < rect.minCoord 1 then false
        else rt.overlaps_aux q nextDim
      | 2 =>
        if rt.overlaps_aux q nextDim then true
        else if q.minCoord 0 > rect.maxCoord 0 then false
        else l.overlaps_aux q nextDim
      | 3 =>
        if rt.overlaps_aux q nextDim then true
        else if q.minCoord 1 > rect.maxCoord 1 then false
        else l.overlaps_aux q nextDim
      | _ => false

/-- `KDTree::overlaps`: the query starts at dimension 0. -/
def KDTree.overlaps (t : KDTree) (r : Rect) : Bool :=
  t.overlaps_aux r 0

/-- All rectangles stored in the tree. -/
def KDTree.toList : KDTree → List Rect
  | .empty => []
  | .node l rt rect => rect :: (l.toList ++ rt.toList)

/-- Inserting a sequence of rectangles into an initially empty index by
repeated `add_rect`. -/
def insertAll (rs : List Rect) : KDTree :=
  rs.foldl KDTree.add_rect KDTree.empty

/-- Strict lexicographic order on `(min.x, min.y, max.x, max.y)`, stated the
way the spec describes the fallback of the dimension comparison: the first
differing coordinate decides, and fully equal rectangles compare `false`. -/
def lexLess (a b : Rect) : Prop :=
  a.minx < b.minx ∨ (a.minx = b.minx ∧ (a.miny < b.miny ∨ (a.miny = b.miny ∧
    (a.maxx < b.maxx ∨ (a.maxx = b.maxx ∧ a.maxy < b.maxy)))))

instance (a b : Rect) : Decidable (lexLess a b) := by
  unfold lexLess; infer_instance

lemma is_lex_less_eq_decide (a b : Rect) :
    a.is_lex_less b = decide (lexLess a b) := by
  unfold Rect.is_lex_less lexLess
  split_ifs <;> simp_all <;> omega

lemma overlaps_iff {a b : Rect} :
    a.overlaps b = true ↔
      a.minx < b.maxx ∧ b.minx < a.maxx ∧ a.miny < b.maxy ∧ b.miny < a.maxy := by
  simp [Rect.overlaps, and_assoc]

lemma overlaps_comm (a b : Rect) : a.overlaps b = b.overlaps a := by
  rw [Bool.eq_iff_iff, overlaps_iff, overlaps_iff]
  omega

/-- C6: `overlaps(a, b)` is true iff `a.min.x < b.max.x ∧ a.max.x > b.min.x ∧
a.min.y < b.max.y ∧ a.max.y > b.min.y` — an open-interval test, so rectangles
that only share a boundary coordinate do not overlap; in particular
`[(0,0),(10,10)]` and `[(10,10),(20,20)]` give `false` in both orders. -/
theorem overlaps_characterization :
    (∀ a b : Rect, a.overlaps b = true ↔
      a.minx < b.maxx ∧ a.maxx > b.minx ∧ a.miny < b.maxy ∧ a.maxy > b.miny) ∧
    Rect.overlaps ⟨0, 0, 10, 10⟩ ⟨10, 10, 20, 20⟩ = false ∧
    Rect.overlaps ⟨10, 10, 20, 20⟩ ⟨0, 0, 10, 10⟩ = false := by
  refine ⟨fun a b => ?_, by decide, by decide⟩
  simpa [gt_iff_lt] using (overlaps_iff (a := a) (b := b))

/-- C7: for each `dim ∈ {0,1,2,3}`, `is_dim_less` compares the single
coordinate selected by `dim` (`0 ↦ min.x`, `1 ↦ min.y`, `2 ↦ max.x`,
`3 ↦ max.y`): strictly less gives `true`, strictly greater gives `false`, and
on equality it falls back to the full lexicographic comparison of
`(min.x, min.y, max.x, max.y)` in which the first differing coordinate decides
and fully equal rectangles yield `false`. -/
theorem is_dim_less_characterization (a b : Rect) :
    (a.is_dim_less b 0 =
      if a.minx < b.minx then true else if b.minx < a.minx then false
      else decide (lexLess a b)) ∧
    (a.is_dim_less b 1 =
      if a.miny < b.miny then true else if b.miny < a.miny then false
      else decide (lexLess a b)) ∧
    (a.is_dim_less b 2 =
      if a.maxx < b.maxx then true else if b.maxx < a.maxx then false
      else decide (lexLess a b)) ∧
    (a.is_dim_less b 3 =
      if a.maxy < b.maxy then true else if b.maxy < a.maxy then false
      else decide (lexLess a b)) ∧
    (a.is_dim_less a 0 = false ∧ a.is_dim_less a 1 = false ∧
      a.is_dim_less a 2 = false ∧ a.is_dim_less a 3 = false) := by
  refine ⟨?_, ?_, ?_, ?_, ?_, ?_, ?_, ?_⟩ <;>
    simp only [Rect.is_dim_less, is_lex_less_eq_decide] <;>
    simp [lexLess]

lemma is_dim_less_false_0 {a b : Rect} (h : a.is_dim_less b 0 = false) :
    b.minx ≤ a.minx := by
  simp only [Rect.is_dim_less] at h
  split_ifs at h <;> first | exact Bool.noConfusion h | omega

lemma is_dim_less_false_1 {a b : Rect} (h : a.is_dim_less b 1 = false) :
    b.miny ≤ a.miny := by
  simp only [Rect.is_dim_less] at h
  split_ifs at h <;> first | exact Bool.noConfusion h | omega

lemma is_dim_less_true_2 {a b : Rect} (h : a.is_dim_less b 2 = true) :
    a.maxx ≤ b.maxx := by
  simp only [Rect.is_dim_less] at h
  split_ifs at h <;> first | exact Bool.noConfusion h | omega

lemma is_dim_less_true_3 {a b : Rect} (h : a.is_dim_less b 3 = true) :
    a.maxy ≤ b.maxy := by
  simp only [Rect.is_dim_less] at h
  split_ifs at h <;> first | exact Bool.noConfusion h | omega

lemma toList_add_rect_aux (t : KDTree) (r : Rect) (d : Nat) :
    (t.add_rect_aux r d).toList.Perm (r :: t.toList) := by
  induction t generalizing d with
  | empty => simp [KDTree.add_rect_aux, KDTree.toList]
  | node l rt rect ihl ihr =>
    simp only [KDTree.add_rect_aux]
    split
    · simp only [KDTree.toList]
      refine (((ihl _).append_right _).cons rect).trans ?_
      exact List.Perm.swap r rect _
    · simp only [KDTree.toList]
      refine (((ihr _).append_left _).cons rect).trans ?_
      exact (List.perm_middle.cons rect).trans (List.Perm.swap r rect _)

lemma mem_add_rect_aux {t : KDTree} {r x : Rect} {d : Nat} :
    x ∈ (t.add_rect_aux r d).toList ↔ x = r ∨ x ∈ t.toList := by
  rw [(toList_add_rect_aux t r d).mem_iff, List.mem_cons]

/-- The branching discipline that `add_rect` maintains: at a node reached with
dimension `d`, everything in the left subtree is `is_dim_less` the node's
rectangle at `d`, everything in the right subtree is not, and the children are
disciplined at dimension `(d + 1) % 4`. -/
inductive KDTree.WF : KDTree → Nat → Prop
  | empty (d : Nat) : WF .empty d
  | node {l rt : KDTree} {rect : Rect} {d : Nat}
      (hl : ∀ r ∈ l.toList, r.is_dim_less rect d = true)
      (hr : ∀ r ∈ rt.toList, r.is_dim_less rect d = false)
      (wl : WF l ((d + 1) % 4))
      (wr : WF rt ((d + 1) % 4)) : WF (.node l rt rect) d

lemma KDTree.WF.add_rect_aux {t : KDTree} {d : Nat} (w : t.WF d) (r : Rect) :
    (t.add_rect_aux r d).WF d := by
  induction w with
  | empty d =>
    exact .node (by simp [KDTree.toList]) (by simp [KDTree.toList])
      (.empty _) (.empty _)
  | node hl hr wl wr ihl ihr =>
    simp only [KDTree.add_rect_aux]
    split
    next hless =>
      refine .node ?_ hr ihl wr
      intro x hx
      rcases mem_add_rect_aux.1 hx with h | h
      · subst h; exact hless
      · exact hl x h
    next hless =>
      refine .node hl ?_ wl ihr
      intro x hx
      rcases mem_add_rect_aux.1 hx with h | h
      · subst h; exact Bool.eq_false_iff.mpr hless
      · exact hr x h

lemma overlaps_aux_sound {t : KDTree} {q : Rect} {d : Nat}
    (h : t.overlaps_aux q d = true) : ∃ r ∈ t.toList, r.overlaps q = true := by
  induction t generalizing d with
  | empty => simp [KDTree.overlaps_aux] at h
  | node l rt rect ihl ihr =>
    simp only [KDTree.overlaps_aux] at h
    by_cases hov : rect.overlaps q = true
    · exact ⟨rect, by simp [KDTree.toList], hov⟩
    · simp only [Bool.eq_false_iff.mpr hov, if_false, Bool.false_eq_true] at h
      have sub : ∀ {d' : Nat}, l.overlaps_aux q d' = true ∨ rt.overlaps_aux q d' = true →
          ∃ r ∈ (KDTree.node l rt rect).toList, r.overlaps q = true := by
        intro d' hd
        rcases hd with hd | hd
        · obtain ⟨r, hm, ho⟩ := ihl hd
          exact ⟨r, by simp [KDTree.toList, hm], ho⟩
        · obtain ⟨r, hm, ho⟩ := ihr hd
          exact ⟨r, by simp [KDTree.toList, hm], ho⟩
      rcases d with _ | _ | _ | _ | d
      · by_cases hL : l.overlaps_aux q ((0 + 1) % 4) = true
        · exact sub (Or.inl hL)
        · by_cases hR : rt.overlaps_aux q ((0 + 1) % 4) = true
          · exact sub (Or.inr hR)
          · simp [Bool.eq_false_iff.mpr hL, Bool.eq_false_iff.mpr hR] at h
      · by_cases hL : l.overlaps_aux q ((1 + 1) % 4) = true
        · exact sub (Or.inl hL)
        · by_cases hR : rt.overlaps_aux q ((1 + 1) % 4) = true
          · exact sub (Or.inr hR)
          · simp [Bool.eq_false_iff.mpr hL, Bool.eq_false_iff.mpr hR] at h
      · by_cases hL : l.overlaps_aux q ((2 + 1) % 4) = true
        · exact sub (Or.inl hL)
        · by_cases hR : rt.overlaps_aux q ((2 + 1) % 4) = true
          · exact sub (Or.inr hR)
          · simp [Bool.eq_false_iff.mpr hL, Bool.eq_false_iff.mpr hR] at h
      · by_cases hL : l.overlaps_aux q ((3 + 1) % 4) = true
        · exact sub (Or.inl hL)
        · by_cases hR : rt.overlaps_aux q ((3 + 1) % 4) = true
          · exact sub (Or.inr hR)
          · simp [Bool.eq_false_iff.mpr hL, Bool.eq_false_iff.mpr hR] at h
      · simp at h

lemma overlaps_aux_complete {t : KDTree} {r q : Rect} (ho : r.overlaps q = true) :
    ∀ {d : Nat}, d < 4 → t.WF d → r ∈ t.toList → t.overlaps_aux q d = true := by
  induction t with
  | empty => intro d hd w hm; simp [KDTree.toList] at hm
  | node l rt rect ihl ihr =>
    intro d hd w hm
    cases w with
    | node hl hr wl wr =>
      simp only [KDTree.overlaps_aux]
      by_cases hov : rect.overlaps q = true
      · simp [hov]
      · have hne : r ≠ rect := fun hrr => hov (hrr ▸ ho)
        have hmem : r ∈ l.toList ++ rt.toList := by
          rcases List.mem_cons.1 hm with h | h
          · exact absurd h hne
          · exact h
        simp only [Bool.eq_false_iff.mpr hov, if_false, Bool.false_eq_true]
        interval_cases d
        · rcases List.mem_append.1 hmem with h | h
          · simp [ihl (by omega) wl h]
          · by_cases hL : l.overlaps_aux q ((0 + 1) % 4) = true
            · simp [hL]
            · have hpr : ¬ q.maxCoord 0 < rect.minCoord 0 := by
                have h1 := is_dim_less_false_0 (hr r h)
                have h2 := overlaps_iff.1 ho
                simp only [Rect.maxCoord, Rect.minCoord]
                omega
              simp [Bool.eq_false_iff.mpr hL, hpr, ihr (by omega) wr h]
        · rcases List.mem_append.1 hmem with h | h
          · simp [ihl (by omega) wl h]
          · by_cases hL : l.overlaps_aux q ((1 + 1) % 4) = true
            · simp [hL]
            · have hpr : ¬ q.maxCoord 1 < rect.minCoord 1 := by
                have h1 := is_dim_less_false_1 (hr r h)
                have h2 := overlaps_iff.1 ho
                simp only [Rect.maxCoord, Rect.minCoord]
                omega
              simp [Bool.eq_false_iff.mpr hL, hpr, ihr (by omega) wr h]
        · rcases List.mem_append.1 hmem with h | h
          · by_cases hR : rt.overlaps_aux q ((2 + 1) % 4) = true
            · simp [hR]
            · have hpr : ¬ q.minCoord 0 > rect.maxCoord 0 := by
                have h1 := is_dim_less_true_2 (hl r h)
                have h2 := overlaps_iff.1 ho
                simp only [Rect.minCoord, Rect.maxCoord]
                omega
              simp [Bool.eq_false_iff.mpr hR, hpr, ihl (by omega) wl h]
          · simp [ihr (by omega) wr h]
        · rcases List.mem_append.1 hmem with h | h
          · by_cases hR : rt.overlaps_aux q ((3 + 1) % 4) = true
            · simp [hR]
            · have hpr : ¬ q.minCoord 1 > rect.maxCoord 1 := by
                have h1 := is_dim_less_true_3 (hl r h)
                have h2 := overlaps_iff.1 ho
                simp only [Rect.minCoord, Rect.maxCoord]
                omega
              simp [Bool.eq_false_iff.mpr hR, hpr, ihl (by omega) wl h]
          · simp [ihr (by omega) wr h]

lemma mem_foldl_add {rs : List Rect} {t : KDTree} {x : Rect} :
    x ∈ (rs.foldl KDTree.add_rect t).toList ↔ x ∈ rs ∨ x ∈ t.toList := by
  induction rs generalizing t with
  | nil => simp
  | cons r rest ih =>
    rw [List.foldl_cons, ih]
    have : x ∈ (t.add_rect r).toList ↔ x = r ∨ x ∈ t.toList := mem_add_rect_aux
    rw [this, List.mem_cons]
    tauto

lemma WF_foldl_add (rs : List Rect) (t : KDTree) (w : t.WF 0) :
    (rs.foldl KDTree.add_rect t).WF 0 := by
  induction rs generalizing t with
  | nil => exact w
  | cons r rest ih => exact ih _ (w.add_rect_aux r)

/-- The spatial index answers every query exactly like a brute-force linear
scan of everything ever inserted, with no precondition on the inserted
rectangles. -/
lemma insertAll_overlaps_eq (rs : List Rect) (q : Rect) :
    (insertAll rs).overlaps q = rs.any fun r => r.overlaps q := by
  rw [Bool.eq_iff_iff]
  constructor
  · intro h
    obtain ⟨r, hmem, hov⟩ := overlaps_aux_sound h
    have hrs : r ∈ rs := by
      have h' := mem_foldl_add.1 hmem
      simpa [KDTree.toList] using h'
    exact List.any_eq_true.mpr ⟨r, hrs, hov⟩
  · intro h
    obtain ⟨r, hrs, hov⟩ := List.any_eq_true.1 h
    exact overlaps_aux_complete hov (by omega) (WF_foldl_add rs _ (.empty 0))
      (mem_foldl_add.2 (Or.inl hrs))

/-- C1: for every sequence of pairwise non-overlapping rectangles inserted via
`add_rect` and every query rectangle `q`, the index's `overlaps(q)` equals a
brute-force linear scan of the inserted rectangles with `Rect::overlaps`. -/
theorem index_correct_of_pairwise_disjoint (rs : List Rect) (q : Rect)
    (_hdisj : rs.Pairwise fun a b => a.overlaps b = false) :
    (insertAll rs).overlaps q = rs.any fun r => r.overlaps q :=
  insertAll_overlaps_eq rs q

/-- Witness for C1 at the spec's regression example. -/
theorem index_correct_of_pairwise_disjoint_witness :
    ([⟨0, 0, 10, 10⟩, ⟨10, 10, 20, 20⟩, ⟨20, 20, 30, 30⟩] : List Rect).Pairwise
      (fun a b => a.overlaps b = false) ∧
    (insertAll [⟨0, 0, 10, 10⟩, ⟨10, 10, 20, 20⟩, ⟨20, 20, 30, 30⟩]).overlaps
        ⟨5, 5, 10, 10⟩ =
      ([⟨0, 0, 10, 10⟩, ⟨10, 10, 20, 20⟩, ⟨20, 20, 30, 30⟩] : List Rect).any
        (fun r => r.overlaps ⟨5, 5, 10, 10⟩) :=
  ⟨by decide, index_correct_of_pairwise_disjoint _ _ (by decide)⟩

/-- C10: the index's query is exact for every insertion sequence — even
mutually overlapping or degenerate rectangles — because both pruning tests are
sound for any tree built by the insert branching rule. -/
theorem index_correct_unconditional (rs : List Rect) (q : Rect) :
    (insertAll rs).overlaps q = rs.any fun r => r.overlaps q :=
  insertAll_overlaps_eq rs q

/-- `Tile` (`src/map_gen.rs`). -/
inductive Tile where
  | empty : Tile
  | dirt : Tile
deriving DecidableEq

/-- Alias for the empty tile (the `E` constant of the source). -/
def E : Tile := Tile.empty

/-- Alias for the dirt tile (the `D` constant of the source). -/
def D : Tile := Tile.dirt

/-- `Tile::is_empty`. -/
def Tile.is_empty : Tile → Bool
  | .empty => true
  | .dirt => false

/-- `Direction` (`src/map_gen.rs`), in discriminant order
North = 0, East = 1, South = 2, West = 3. -/
inductive Direction where
  | north : Direction
  | east : Direction
  | south : Direction
  | west : Direction
deriving DecidableEq

/-- `Direction::flip`. -/
def Direction.flip : Direction → Direction
  | .north => .south
  | .east => .west
  | .south => .north
  | .west => .east

/-- `Room` (`src/map_gen.rs`): a rectangular tile layout with the four
entrance-offset lists (the `entrances: [Vec<i32>; 4]` array, one field per
cardinal direction in discriminant order). -/
structure Room where
  width : Nat
  height : Nat
  layout : List (List Tile)
  north_entrances : List Int
  east_entrances : List Int
  south_entrances : List Int
  west_entrances : List Int
deriving DecidableEq

/-- `room.entrances[direction as usize]`. -/
def Room.entrancesAt (room : Room) : Direction → List Int
  | .north => room.north_entrances
  | .east => room.east_entrances
  | .south => room.south_entrances
  | .west => room.west_entrances

/-- The offsets at which a layout row holds an `Empty` tile (the source's
`iter().enumerate().filter(..is_empty()).map(i as i32)` over one row). -/
def rowEntrances (row : List Tile) : List Int :=
  (row.enum.filter fun p => p.2.is_empty).map fun p => (p.1 : Int)

/-- The offsets of the layout rows whose tile in column `col` is `Empty` (the
source's `iter().enumerate().filter(|(_, t)| t[col].is_empty())`); `none`
models the index-out-of-range panic raised when some row is shorter than
`col + 1`, since the closure indexes every row. -/
def colEntrances (col : Nat) : List (List Tile) → Nat → Option (List Int)
  | [], _ => some []
  | row :: rest, i =>
    match row.get? col with
    | none => none
    | some t =>
      match colEntrances col rest (i + 1) with
      | none => none
      | some l => some (if t.is_empty then (i : Int) :: l else l)

/-- `Room::new`. A `none` result models a construction-time panic of the
source: `layout[0]` on an empty layout, the `usize` underflow of `width - 1`
when the first row is empty, or an index-out-of-range when some row is shorter
than the first. -/
def Room.new (layout : List (List Tile)) : Option Room := do
  let row0 ← layout.get? 0
  let width := row0.length
  let height := layout.length
  let north := rowEntrances row0
  let wm1 ← if 1 ≤ width then some (width - 1) else none
  let east ← colEntrances wm1 layout 0
  let lastRow ← layout.get? (height - 1)
  let south := rowEntrances lastRow
  let west ← colEntrances 0 layout 0
  some { width := width, height := height, layout := layout,
         north_entrances := north, east_entrances := east,
         south_entrances := south, west_entrances := west }

/-- The layout of the distinguished start room built in `MapGenerator::new`. -/
def start_layout : List (List Tile) :=
  [[E, E, E, E, E, E, E, E, E, E],
   [E, E, E, E, E, E, E, E, E, E],
   [E, D, D, D, E, D, D, D, D, E],
   [E, D, D, E, E, E, E, D, D, E],
   [E, D, E, E, E, E, E, D, E, E],
   [E, D, E, E, E, E, E, D, E, E],
   [E, D, E, E, E, E, E, D, E, E],
   [E, D, D, E, E, E, E, D, E, E],
   [E, D, D, D, E, E, E, D, D, E],
   [D, D, D, D, E, E, D, D, D, D]]

/-- A placeholder room (never produced by the program; only the default of
`Option.getD` below). -/
def roomDefault : Room :=
  { width := 0, height := 0, layout := [], north_entrances := [],
    east_entrances := [], south_entrances := [], west_entrances := [] }

/-- The start room of `MapGenerator::new` (its construction succeeds, so the
`getD` default is irrelevant). -/
def first_room : Room := (Room.new start_layout).getD roomDefault

/-- The layouts of the `AVAILABLE_ROOMS` table, in source order. -/
def available_room_layouts : List (List (List Tile)) :=
  [[[D, D, D], [E, E, E], [D, D, D]],
   [[E, D, D], [E, E, E], [D, D, E]],
   [[D, D, E], [E, E, E], [E, D, D]],
   [[D, E, D], [D, E, D], [D, E, D]],
   [[E, E, D], [D, E, D], [D, E, E]],
   [[E, E, E, E], [D, E, E, E], [D, E, E, D], [D, E, D, D], [D, E, D, D],
    [D, E, D, D], [D, D, D, D]],
   [[E, E, E, E, E, D, D, D], [D, D, D, E, E, D, D, D],
    [D, E, E, E, E, E, E, D], [D, D, D, E, E, D, D, D]],
   [[E, D, E, D, E, D, E, D, E], [E, D, D, D, D, D, D, D, E],
    [E, D, E, D, E, D, E, D, E]],
   [[E, E, E, E, E, E, E, E], [D, D, D, D, D, D, D, D],
    [E, D, D, D, D, D, D, E], [E, D, D, E, E, D, D, E]],
   [[E, E, E, E, E, E, E, E, E], [E, D, D, D, D, D, D, D, E],
    [E, D, E, D, E, D, E, D, E], [E, D, D, D, D, D, D, D, E],
    [E, D, E, D, E, D, E, D, E], [E, D, D, D, D, D, D, D, E]],
   [[D, D, E, E, E, E, E, E, E], [D, E, E, E, E, D, E, E, E],
    [E, E, E, E, D, D, D, E, E], [E, E, E, E, E, D, D, D, E],
    [E, E, E, E, E, D, D, D, D], [E, E, E, D, D, D, D, D, D]]]

/-- The `AVAILABLE_ROOMS` table. Every layout is well-formed, so `filterMap`
keeps all eleven rooms (a malformed one would have made the source panic when
the lazily initialized table was built). -/
def AVAILABLE_ROOMS : List Room := available_room_layouts.filterMap Room.new

/-- `RoomPlacement`: a room anchored at a position (`pos`, top-left corner). -/
structure RoomPlacement where
  pos : Int × Int
  room : Room
deriving DecidableEq

/-- `Room::place`. -/
def Room.place (room : Room) (pos : Int × Int) : RoomPlacement :=
  { pos := pos, room := room }

/-- The bounding rectangle of a placement: the anchor extended by the room's
width and height (the rectangle `next_placements` and `MapGenerator::new`
build and record in the index). -/
def RoomPlacement.rect (p : RoomPlacement) : Rect :=
  ⟨p.pos.1, p.pos.2, p.pos.1 + (p.room.width : Int), p.pos.2 + (p.room.height : Int)⟩

/-- The injected randomness source (spec §6: a seeded, repeatable shuffler of
finite sequences, modelled at the `rand::Rng`/`shuffle` boundary, which is
external to this repository). A value of type `ρ` is the source's seeded
state; `shuffle` returns the reordered list and the successor state. The
claims below hold for arbitrary `shuffle` functions, so no permutation
property is required of the field. -/
structure Rng (ρ : Type) : Type 1 where
  shuffle : {α : Type} → List α → ρ → List α × ρ

/-- The trivial randomness source: shuffling leaves the list unchanged. -/
def idRng : Rng Unit := ⟨fun l s => (l, s)⟩

/-- The `screen` rectangle of `next_placements`: the generation bounds plus a
fixed 20-unit margin on the high side, anchored at the origin. -/
def screenRect (w h : Nat) : Rect :=
  ⟨0, 0, (w : Int) + 20, (h : Int) + 20⟩

/-- The acceptance test of `next_placements`:
`!self.prev_placed.overlaps(&r) && screen.overlaps(&r)`. -/
def accepts (prev : KDTree) (w h : Nat) (r : Rect) : Bool :=
  !(prev.overlaps r) && (screenRect w h).overlaps r

/-- The `attempt_pos` computation of `next_placements`: the candidate's anchor
that aligns its opposite-side doorway with the current room's exit. -/
def attemptPos (curr : RoomPlacement) (cardinal : Direction) (exit : Int)
    (entrance : Int) (try_room : Room) : Int × Int :=
  match cardinal with
  | .north => (curr.pos.1 + exit - entrance, curr.pos.2 - (try_room.height : Int))
  | .east => (curr.pos.1 + (curr.room.width : Int), curr.pos.2 + exit - entrance)
  | .south => (curr.pos.1 + exit - entrance, curr.pos.2 + (curr.room.height : Int))
  | .west => (curr.pos.1 - (try_room.width : Int), curr.pos.2 + exit - entrance)

/-- The mutable state threaded through the loops of `next_placements`:
the pending stack, the spatial index, the randomness state and the reusable
`indices` vector. The stack is modelled head-first (`push` is cons, `pop`
takes the head), matching the LIFO behaviour of `Vec`. -/
structure FrontierState (ρ : Type) where
  room_stack : List RoomPlacement
  prev_placed : KDTree
  rng : ρ
  indices : List Nat

/-- The innermost loop of `next_placements`: try every entrance of
`try_room` on the side facing `cardinal` until one candidate is accepted;
on acceptance return the updated index and the new placement. -/
def tryEntrances (w h : Nat) (curr : RoomPlacement) (cardinal : Direction)
    (exit : Int) (try_room : Room) (prev : KDTree) :
    List Int → Option (KDTree × RoomPlacement)
  | [] => none
  | entrance :: rest =>
    let attempt_pos := attemptPos curr cardinal exit entrance try_room
    let r : Rect := ⟨attempt_pos.1, attempt_pos.2,
      attempt_pos.1 + (try_room.width : Int), attempt_pos.2 + (try_room.height : Int)⟩
    if accepts prev w h r then
      some (prev.add_rect r, try_room.place attempt_pos)
    else
      tryEntrances w h curr cardinal exit try_room prev rest

/-- The per-exit loop over the shuffled room indices: try each catalog room in
turn until one is accepted (`continue 'next_exit`). An index outside the
catalog is skipped; in the source this cannot occur (`indices` is always a
permutation of `0..AVAILABLE_ROOMS.len()`, and an out-of-range index would
panic). -/
def tryIndices (w h : Nat) (curr : RoomPlacement) (cardinal : Direction)
    (exit : Int) (prev : KDTree) : List Nat → Option (KDTree × RoomPlacement)
  | [] => none
  | i :: rest =>
    match AVAILABLE_ROOMS.get? i with
    | none => tryIndices w h curr cardinal exit prev rest
    | some try_room =>
      match tryEntrances w h curr cardinal exit try_room prev
          (try_room.entrancesAt cardinal.flip) with
      | some res => some res
      | none => tryIndices w h curr cardinal exit prev rest

/-- The `'next_exit` loop of `next_placements`: for each exit, reshuffle
`indices`, then search the catalog; on acceptance record the rectangle and
push the placement. -/
def exitsLoop (R : Rng ρ) (w h : Nat) (curr : RoomPlacement)
    (cardinal : Direction) : List Int → FrontierState ρ → FrontierState ρ
  | [], st => st
  | exit :: rest, st =>
    let sh := R.shuffle st.indices st.rng
    match tryIndices w h curr cardinal exit st.prev_placed sh.1 with
    | some res =>
      exitsLoop R w h curr cardinal rest
        ⟨res.2 :: st.room_stack, res.1, sh.2, sh.1⟩
    | none =>
      exitsLoop R w h curr cardinal rest
        ⟨st.room_stack, st.prev_placed, sh.2, sh.1⟩

/-- The outer loop of `next_placements` over the shuffled cardinal
directions: clone and shuffle the current room's exits for the direction,
then run the exits loop. -/
def cardinalsLoop (R : Rng ρ) (w h : Nat) (curr : RoomPlacement) :
    List Direction → FrontierState ρ → FrontierState ρ
  | [], st => st
  | cardinal :: rest, st =>
    let sh := R.shuffle (curr.room.entrancesAt cardinal) st.rng
    cardinalsLoop R w h curr rest
      (exitsLoop R w h curr cardinal sh.1
        ⟨st.room_stack, st.prev_placed, sh.2, st.indices⟩)

/-- `MapGenerator` (`src/map_gen.rs`): generation bounds, pending stack,
spatial index of everything placed, and the randomness state. -/
structure MapGenerator (ρ : Type) where
  width : Nat
  height : Nat
  room_stack : List RoomPlacement
  prev_placed : KDTree
  rng : ρ
deriving DecidableEq

/-- `MapGenerator::next_placements`: build the fresh `indices` vector, shuffle
the four cardinals, and grow the frontier from `curr`. -/
def next_placements (R : Rng ρ) (gen : MapGenerator ρ) (curr : RoomPlacement) :
    MapGenerator ρ :=
  let indices := List.range AVAILABLE_ROOMS.length
  let sh := R.shuffle [Direction.north, Direction.east, Direction.south,
    Direction.west] gen.rng
  let st := cardinalsLoop R gen.width gen.height curr sh.1
    ⟨gen.room_stack, gen.prev_placed, sh.2, indices⟩
  { gen with room_stack := st.room_stack, prev_placed := st.prev_placed,
             rng := st.rng }

/-- `MapGenerator::new`. The result is `none` exactly when one of the `u32`
subtractions `width - first_room.width`, `height - first_room.height`
underflows (a panic in the source); otherwise the start room is placed
centered, its rectangle is recorded, and its placement seeds the stack. -/
def MapGenerator.new {ρ : Type} (width height : Nat) (rng : ρ) :
    Option (MapGenerator ρ) :=
  if first_room.width ≤ width ∧ first_room.height ≤ height then
    let start_x : Int := (((width - first_room.width) / 2 : Nat) : Int)
    let start_y : Int := (((height - first_room.height) / 2 : Nat) : Int)
    some { width := width, height := height,
           room_stack := [first_room.place (start_x, start_y)],
           prev_placed := KDTree.empty.add_rect
             ⟨start_x, start_y, start_x + (first_room.width : Int),
               start_y + (first_room.height : Int)⟩,
           rng := rng }
  else none

/-- `Iterator::next` for `MapGenerator`: pop one pending placement, grow the
frontier from it, and yield it; `none` when the stack is exhausted. -/
def MapGenerator.next (R : Rng ρ) (gen : MapGenerator ρ) :
    Option (RoomPlacement × MapGenerator ρ) :=
  match gen.room_stack with
  | [] => none
  | curr :: rest =>
    some (curr, next_placements R { gen with room_stack := rest } curr)

/-- Pull at most `n` placements from the generator, returning the yielded
placements in order together with the final generator state. -/
def MapGenerator.run (R : Rng ρ) (gen : MapGenerator ρ) :
    Nat → List RoomPlacement × MapGenerator ρ
  | 0 => ([], gen)
  | n + 1 =>
    match gen.next R with
    | none => ([], gen)
    | some (p, gen') =>
      let rest := gen'.run R n
      (p :: rest.1, rest.2)

/-- The first `n` placements yielded by a generator constructed from the given
bounds and seed (`none` when construction itself fails). -/
def MapGenerator.outputs {ρ : Type} (R : Rng ρ) (w h : Nat) (seed : ρ)
    (n : Nat) : Option (List RoomPlacement) :=
  (MapGenerator.new w h seed).map fun gen => (gen.run R n).1

/-- Containment of a rectangle in the expanded generation region, stated from
the spec's words for C2 ("lies within the region from the origin to
(width + 20, height + 20)"); to be compared with the source's `accepts`. -/
def liesWithinBounds (w h : Nat) (r : Rect) : Bool :=
  decide (0 ≤ r.minx) && decide (r.maxx ≤ (w : Int) + 20) &&
    decide (0 ≤ r.miny) && decide (r.maxy ≤ (h : Int) + 20)

/-- Counterexample to C2 as stated: with the start room of a 20×20 generation
recorded in the index, the candidate rectangle `[(-4,5),(5,8)]` (a 9×3 catalog
room attached to the west side of the start room) is accepted by the code even
though it does not lie within the origin-anchored region, and it overlaps
nothing in the index. -/
theorem accepts_not_containment :
    accepts (KDTree.empty.add_rect ⟨5, 5, 15, 15⟩) 20 20 ⟨-4, 5, 5, 8⟩ = true ∧
    (KDTree.empty.add_rect ⟨5, 5, 15, 15⟩).overlaps ⟨-4, 5, 5, 8⟩ = false ∧
    liesWithinBounds 20 20 ⟨-4, 5, 5, 8⟩ = false := by
  decide

/-- C2 (amended): a candidate rectangle is accepted iff (a) it does not
overlap any rectangle already recorded in the spatial index and (b) it
overlaps — shares interior with, rather than lies within — the region from
the origin to (width + 20, height + 20). -/
theorem accepts_characterization (prev : KDTree) (w h : Nat) (r : Rect) :
    accepts prev w h r = true ↔
      prev.overlaps r = false ∧
        0 < r.maxx ∧ r.minx < (w : Int) + 20 ∧ 0 < r.maxy ∧ r.miny < (h : Int) + 20 := by
  simp only [accepts, Bool.and_eq_true, Bool.not_eq_true']
  rw [overlaps_iff]
  simp only [screenRect]

/-- C8: evaluation of `Room::new` at malformed grids. The non-rectangular
grid `[[D,D],[D,D,D]]`, whose second row is longer than the first, is
silently accepted (no failure of any kind); an empty grid and a grid whose
first row is empty fail by panicking (modelled `none`), not by signalling any
`InvalidTemplate` condition — no such condition exists in the code. -/
theorem room_new_malformed_behaviour :
    (Room.new [[D, D], [D, D, D]]).isSome = true ∧
    Room.new ([] : List (List Tile)) = none ∧
    Room.new [([] : List Tile), [D]] = none := by
  decide

/-- C9: constructing a `MapGenerator` is well-defined exactly when the
generation bounds dominate the 10×10 start room; for `width < 10` or
`height < 10` the `u32` subtractions computing the centered anchor underflow
(modelled as a `none` result). -/
theorem new_requires_start_room_bounds {ρ : Type} (seed : ρ) (w h : Nat) :
    (MapGenerator.new w h seed = none ↔ w < 10 ∨ h < 10) ∧
    first_room.width = 10 ∧ first_room.height = 10 := by
  refine ⟨?_, by decide, by decide⟩
  have h10w : first_room.width = 10 := by decide
  have h10h : first_room.height = 10 := by decide
  unfold MapGenerator.new
  simp only [h10w, h10h]
  split_ifs with hc
  · have hb : ¬(w < 10 ∨ h < 10) := by omega
    simp [hb]
  · have hb : w < 10 ∨ h < 10 := by omega
    simp [hb]

/-- Fallback generator value, used only as the `Option.getD` default inside
concrete witnesses. -/
def genDefault : MapGenerator Unit := ⟨0, 0, [], KDTree.empty, ()⟩

/-- C4: the generator is deterministic — identical generation bounds and an
identical randomness source in an identical seeded state produce the identical
ordered sequence of placements; the output sequence is a function of the
bounds and the seed alone (the embedding threads the randomness state purely,
as the source does with its owned `R: Rng` value). -/
theorem generator_deterministic {ρ : Type} (R : Rng ρ) (w h w' h' : Nat)
    (s s' : ρ) (n : Nat) (hw : w = w') (hh : h = h') (hs : s = s') :
    MapGenerator.outputs R w h s n = MapGenerator.outputs R w' h' s' n := by
  subst hw; subst hh; subst hs; rfl

/-- Witness for C4 at concrete bounds, seed and step count. -/
theorem generator_deterministic_witness :
    10 = 10 ∧ 12 = 12 ∧ () = () ∧
    MapGenerator.outputs idRng 10 12 () 3 = MapGenerator.outputs idRng 10 12 () 3 :=
  ⟨rfl, rfl, rfl, generator_deterministic idRng 10 12 10 12 () () 3 rfl rfl rfl⟩

/-- A rectangle as a generation run with bounds `w × h` records it: positive
extent of at most 10 on each axis (every room of the program is between 1×1
and 10×10), and open-interval intersection with the screen region. -/
def GoodRect (w h : Nat) (r : Rect) : Prop :=
  0 < r.maxx - r.minx ∧ r.maxx - r.minx ≤ 10 ∧
    0 < r.maxy - r.miny ∧ r.maxy - r.miny ≤ 10 ∧
    (screenRect w h).overlaps r = true

lemma GoodRect.self_overlaps {w h : Nat} {r : Rect} (hg : GoodRect w h r) :
    r.overlaps r = true := by
  obtain ⟨h1, h2, h3, h4, h5⟩ := hg
  rw [overlaps_iff]
  omega

lemma GoodRect.overlaps_of_same_corner {w h : Nat} {a b : Rect}
    (ha : GoodRect w h a) (hb : GoodRect w h b)
    (hx : a.minx = b.minx) (hy : a.miny = b.miny) : a.overlaps b = true := by
  obtain ⟨a1, a2, a3, a4, -⟩ := ha
  obtain ⟨b1, b2, b3, b4, -⟩ := hb
  rw [overlaps_iff]
  omega

lemma overlaps_false_symmetric :
    Symmetric fun a b : Rect => a.overlaps b = false := by
  intro x y hxy
  rw [overlaps_comm]
  exact hxy

/-- Pairwise non-overlapping rectangles of positive extent at most 10×10 that
all intersect the screen region have pairwise distinct `min` corners inside a
finite grid, so at most `(w + 29) * (h + 29)` of them fit. -/
lemma goodRect_list_length_le {w h : Nat} {L : List Rect}
    (hp : L.Pairwise fun a b => a.overlaps b = false)
    (hg : ∀ r ∈ L, GoodRect w h r) :
    L.length ≤ (w + 29) * (h + 29) := by
  classical
  have hnd : L.Nodup := by
    refine List.Pairwise.imp_of_mem ?_ hp
    intro a b ha _ hab heq
    subst heq
    rw [GoodRect.self_overlaps (hg a ha)] at hab
    exact Bool.noConfusion hab
  have hcard : L.toFinset.card = L.length := List.toFinset_card_of_nodup hnd
  set G : Finset (Int × Int) :=
    Finset.Icc (-9 : Int) ((w : Int) + 19) ×ˢ
      Finset.Icc (-9 : Int) ((h : Int) + 19) with hG
  have hmaps : ∀ r ∈ L.toFinset, (r.minx, r.miny) ∈ G := by
    intro r hr
    rw [List.mem_toFinset] at hr
    obtain ⟨h1, h2, h3, h4, h5⟩ := hg r hr
    rw [overlaps_iff] at h5
    simp only [screenRect] at h5
    simp only [hG, Finset.mem_product, Finset.mem_Icc]
    omega
  have hinj : Set.InjOn (fun r : Rect => (r.minx, r.miny)) L.toFinset := by
    intro a ha b hb hfab
    rw [Finset.mem_coe, List.mem_toFinset] at ha hb
    by_contra hne
    have hdiff := (hp.forall overlaps_false_symmetric) ha hb hne
    rw [Prod.mk.injEq] at hfab
    rw [GoodRect.overlaps_of_same_corner (hg a ha) (hg b hb) hfab.1 hfab.2]
      at hdiff
    exact Bool.noConfusion hdiff
  have hle := Finset.card_le_card_of_injOn _ hmaps hinj
  have hGcard : G.card = (w + 29) * (h + 29) := by
    simp only [hG, Finset.card_product, Int.card_Icc]
    congr 1
  omega

/-- Every catalog room is between 1×1 and 10×10. -/
lemma available_rooms_dims :
    ∀ room ∈ AVAILABLE_ROOMS, 1 ≤ room.width ∧ room.width ≤ 10 ∧
      1 ≤ room.height ∧ room.height ≤ 10 := by
  decide

/-- The invariant of the frontier-growth search, relative to a list `O` of
rectangles already yielded (plus the one being expanded): the index is a
well-formed tree of pairwise non-overlapping screen-bounded room rectangles;
every pending placement's rectangle and every yielded rectangle is recorded in
the index; and the yielded and pending rectangles are all distinct. -/
structure FInv (w h : Nat) (O : List Rect) (stack : List RoomPlacement)
    (tree : KDTree) : Prop where
  wf : tree.WF 0
  tp : tree.toList.Pairwise fun a b => a.overlaps b = false
  tg : ∀ r ∈ tree.toList, GoodRect w h r
  ss : ∀ p ∈ stack, p.rect ∈ tree.toList
  nd : (O ++ stack.map RoomPlacement.rect).Nodup
  os : ∀ r ∈ O, r ∈ tree.toList

/-- Accounting relation between two points of the search: the index only
grows, and stack pushes match index insertions one for one. -/
structure Grows (stack : List RoomPlacement) (tree : KDTree)
    (stack' : List RoomPlacement) (tree' : KDTree) : Prop where
  mem : ∀ x ∈ tree.toList, x ∈ tree'.toList
  len : tree.toList.length ≤ tree'.toList.length
  bal : stack'.length + tree.toList.length = stack.length + tree'.toList.length

lemma Grows.refl (stack : List RoomPlacement) (tree : KDTree) :
    Grows stack tree stack tree :=
  ⟨fun _ hx => hx, le_refl _, rfl⟩

lemma Grows.trans {s1 s2 s3 : List RoomPlacement} {t1 t2 t3 : KDTree}
    (g1 : Grows s1 t1 s2 t2) (g2 : Grows s2 t2 s3 t3) : Grows s1 t1 s3 t3 := by
  refine ⟨fun x hx => g2.mem x (g1.mem x hx), le_trans g1.len g2.len, ?_⟩
  have h1 := g1.bal
  have h2 := g2.bal
  omega

/-- Recording one accepted candidate preserves the invariant: the new
rectangle is fresh, pairwise disjoint from everything recorded, and the stack
and index each grow by exactly one entry. -/
lemma add_accepted {w h : Nat} {O : List Rect}
    {stack : List RoomPlacement} {tree : KDTree}
    (hF : FInv w h O stack tree) {pl : RoomPlacement}
    (hroom : pl.room ∈ AVAILABLE_ROOMS)
    (hsx : pl.rect.maxx - pl.rect.minx = (pl.room.width : Int))
    (hsy : pl.rect.maxy - pl.rect.miny = (pl.room.height : Int))
    (hnov : tree.overlaps pl.rect = false)
    (hscr : (screenRect w h).overlaps pl.rect = true) :
    FInv w h O (pl :: stack) (tree.add_rect pl.rect) ∧
      Grows stack tree (pl :: stack) (tree.add_rect pl.rect) := by
  obtain ⟨hw1, hw2, hh1, hh2⟩ := available_rooms_dims pl.room hroom
  have hgood : GoodRect w h pl.rect :=
    ⟨by omega, by omega, by omega, by omega, hscr⟩
  have hfresh : pl.rect ∉ tree.toList := by
    intro hmem
    have ht : tree.overlaps_aux pl.rect 0 = true :=
      overlaps_aux_complete hgood.self_overlaps (by omega) hF.wf hmem
    rw [KDTree.overlaps] at hnov
    rw [ht] at hnov
    exact Bool.noConfusion hnov
  have hnotov : ∀ x ∈ tree.toList, x.overlaps pl.rect = false := by
    intro x hx
    cases hb : x.overlaps pl.rect with
    | false => rfl
    | true =>
      have ht : tree.overlaps_aux pl.rect 0 = true :=
        overlaps_aux_complete hb (by omega) hF.wf hx
      rw [KDTree.overlaps] at hnov
      rw [ht] at hnov
      exact Bool.noConfusion hnov
  have perm : (tree.add_rect pl.rect).toList.Perm (pl.rect :: tree.toList) :=
    toList_add_rect_aux tree pl.rect 0
  have hmem' : ∀ x, x ∈ (tree.add_rect pl.rect).toList ↔
      x = pl.rect ∨ x ∈ tree.toList := by
    intro x
    rw [perm.mem_iff, List.mem_cons]
  have hlen' : (tree.add_rect pl.rect).toList.length = tree.toList.length + 1 := by
    rw [perm.length_eq]
    rfl
  have hcons : (pl.rect :: tree.toList).Pairwise fun a b => a.overlaps b = false := by
    rw [List.pairwise_cons]
    refine ⟨fun b hb => ?_, hF.tp⟩
    rw [overlaps_comm]
    exact hnotov b hb
  refine ⟨⟨hF.wf.add_rect_aux pl.rect, ?_, ?_, ?_, ?_, ?_⟩,
    fun x hx => (hmem' x).2 (Or.inr hx), by rw [hlen']; omega,
    by simp only [List.length_cons, hlen']; omega⟩
  · exact (perm.pairwise_iff fun hxy => overlaps_false_symmetric hxy).mpr hcons
  · intro r hr
    rcases (hmem' r).1 hr with rfl | hr
    · exact hgood
    · exact hF.tg r hr
  · intro p hp
    rcases List.mem_cons.1 hp with rfl | hp
    · exact (hmem' p.rect).2 (Or.inl rfl)
    · exact (hmem' p.rect).2 (Or.inr (hF.ss p hp))
  · rw [List.map_cons, List.nodup_middle, List.nodup_cons]
    refine ⟨fun hmem => ?_, hF.nd⟩
    rcases List.mem_append.1 hmem with hmem | hmem
    · exact hfresh (hF.os _ hmem)
    · obtain ⟨p, hp, hpr⟩ := List.mem_map.1 hmem
      exact hfresh (hpr ▸ hF.ss p hp)
  · intro r hr
    exact (hmem' r).2 (Or.inr (hF.os r hr))

lemma tryEntrances_some {w h : Nat} {curr : RoomPlacement} {cardinal : Direction}
    {exit : Int} {try_room : Room} {prev : KDTree} {es : List Int}
    {res : KDTree × RoomPlacement}
    (hsome : tryEntrances w h curr cardinal exit try_room prev es = some res) :
    res.1 = prev.add_rect res.2.rect ∧
    prev.overlaps res.2.rect = false ∧
    (screenRect w h).overlaps res.2.rect = true ∧
    res.2.room = try_room ∧
    res.2.rect.maxx - res.2.rect.minx = (res.2.room.width : Int) ∧
    res.2.rect.maxy - res.2.rect.miny = (res.2.room.height : Int) := by
  induction es with
  | nil => exact absurd hsome (by simp [tryEntrances])
  | cons entrance rest ih =>
    simp only [tryEntrances] at hsome
    split at hsome
    next hacc =>
      rw [Option.some_inj] at hsome
      subst hsome
      rw [accepts, Bool.and_eq_true, Bool.not_eq_true'] at hacc
      refine ⟨rfl, hacc.1, hacc.2, rfl, ?_, ?_⟩ <;>
        · simp only [RoomPlacement.rect, Room.place]
          omega
    next => exact ih hsome

lemma tryIndices_some {w h : Nat} {curr : RoomPlacement} {cardinal : Direction}
    {exit : Int} {prev : KDTree} {idxs : List Nat} {res : KDTree × RoomPlacement}
    (hsome : tryIndices w h curr cardinal exit prev idxs = some res) :
    res.1 = prev.add_rect res.2.rect ∧
    prev.overlaps res.2.rect = false ∧
    (screenRect w h).overlaps res.2.rect = true ∧
    res.2.room ∈ AVAILABLE_ROOMS ∧
    res.2.rect.maxx - res.2.rect.minx = (res.2.room.width : Int) ∧
    res.2.rect.maxy - res.2.rect.miny = (res.2.room.height : Int) := by
  induction idxs with
  | nil => exact absurd hsome (by simp [tryIndices])
  | cons i rest ih =>
    rw [tryIndices] at hsome
    rcases hg : AVAILABLE_ROOMS.get? i with _ | try_room
    · simp only [hg] at hsome
      exact ih hsome
    · simp only [hg] at hsome
      rcases ht : tryEntrances w h curr cardinal exit try_room prev
          (try_room.entrancesAt cardinal.flip) with _ | res'
      · simp only [ht] at hsome
        exact ih hsome
      · simp only [ht, Option.some_inj] at hsome
        subst hsome
        obtain ⟨a1, a2, a3, a4, a5, a6⟩ := tryEntrances_some ht
        refine ⟨a1, a2, a3, ?_, a5, a6⟩
        rw [a4]
        exact List.get?_mem hg

lemma exitsLoop_inv {ρ : Type} (R : Rng ρ) (w h : Nat) (curr : RoomPlacement)
    (cardinal : Direction) (exits : List Int) (st : FrontierState ρ)
    (O : List Rect) (hF : FInv w h O st.room_stack st.prev_placed) :
    FInv w h O (exitsLoop R w h curr cardinal exits st).room_stack
      (exitsLoop R w h curr cardinal exits st).prev_placed ∧
    Grows st.room_stack st.prev_placed
      (exitsLoop R w h curr cardinal exits st).room_stack
      (exitsLoop R w h curr cardinal exits st).prev_placed := by
  induction exits generalizing st with
  | nil => exact ⟨hF, Grows.refl _ _⟩
  | cons exit rest ih =>
    simp only [exitsLoop]
    rcases ht : tryIndices w h curr cardinal exit st.prev_placed
        (R.shuffle st.indices st.rng).1 with _ | res
    · simp only [ht]
      exact ih _ hF
    · simp only [ht]
      obtain ⟨a1, a2, a3, a4, a5, a6⟩ := tryIndices_some ht
      rw [a1]
      obtain ⟨hF', hG'⟩ := add_accepted hF a4 a5 a6 a2 a3
      obtain ⟨hF2, hG2⟩ := ih
        ⟨res.2 :: st.room_stack, st.prev_placed.add_rect res.2.rect,
          (R.shuffle st.indices st.rng).2, (R.shuffle st.indices st.rng).1⟩ hF'
      exact ⟨hF2, hG'.trans hG2⟩

lemma cardinalsLoop_inv {ρ : Type} (R : Rng ρ) (w h : Nat)
    (curr : RoomPlacement) (cs : List Direction) (st : FrontierState ρ)
    (O : List Rect) (hF : FInv w h O st.room_stack st.prev_placed) :
    FInv w h O (cardinalsLoop R w h curr cs st).room_stack
      (cardinalsLoop R w h curr cs st).prev_placed ∧
    Grows st.room_stack st.prev_placed
      (cardinalsLoop R w h curr cs st).room_stack
      (cardinalsLoop R w h curr cs st).prev_placed := by
  induction cs generalizing st with
  | nil => exact ⟨hF, Grows.refl _ _⟩
  | cons cardinal rest ih =>
    simp only [cardinalsLoop]
    obtain ⟨hF1, hG1⟩ := exitsLoop_inv R w h curr cardinal
      (R.shuffle (curr.room.entrancesAt cardinal) st.rng).1
      ⟨st.room_stack, st.prev_placed,
        (R.shuffle (curr.room.entrancesAt cardinal) st.rng).2, st.indices⟩ O hF
    obtain ⟨hF2, hG2⟩ := ih _ hF1
    exact ⟨hF2, hG1.trans hG2⟩

lemma next_eq_none_iff {ρ : Type} (R : Rng ρ) (gen : MapGenerator ρ) :
    gen.next R = none ↔ gen.room_stack = [] := by
  rcases hs : gen.room_stack with _ | ⟨c, rest⟩ <;>
    simp [MapGenerator.next, hs]

/-- Frontier growth preserves the invariant: the index only grows, and stack
pushes match index insertions one for one. -/
lemma next_placements_master {ρ : Type} (R : Rng ρ) (gen : MapGenerator ρ)
    (curr : RoomPlacement) (O : List Rect)
    (hF : FInv gen.width gen.height O gen.room_stack gen.prev_placed) :
    FInv gen.width gen.height O (next_placements R gen curr).room_stack
      (next_placements R gen curr).prev_placed ∧
    (∀ x ∈ gen.prev_placed.toList,
      x ∈ (next_placements R gen curr).prev_placed.toList) ∧
    (next_placements R gen curr).room_stack.length
        + gen.prev_placed.toList.length
      = gen.room_stack.length
        + (next_placements R gen curr).prev_placed.toList.length := by
  obtain ⟨hFc, hGc⟩ := cardinalsLoop_inv R gen.width gen.height curr
    (R.shuffle [Direction.north, Direction.east, Direction.south,
      Direction.west] gen.rng).1
    ⟨gen.room_stack, gen.prev_placed,
      (R.shuffle [Direction.north, Direction.east, Direction.south,
        Direction.west] gen.rng).2, List.range AVAILABLE_ROOMS.length⟩ O hF
  exact ⟨hFc, hGc.mem, hGc.bal⟩

/-- One generator step: pop the head placement, grow the frontier. The popped
rectangle joins the yielded list `O`, the invariant is preserved, the index
only grows, and stack pushes match index insertions (the pop accounts for the
`+ 1`). -/
lemma next_master {ρ : Type} (R : Rng ρ) {gen : MapGenerator ρ}
    {curr : RoomPlacement} {gen' : MapGenerator ρ} {O : List Rect}
    (hF : FInv gen.width gen.height O gen.room_stack gen.prev_placed)
    (hnext : gen.next R = some (curr, gen')) :
    gen'.width = gen.width ∧ gen'.height = gen.height ∧
    FInv gen.width gen.height (O ++ [curr.rect]) gen'.room_stack
      gen'.prev_placed ∧
    (∀ x ∈ gen.prev_placed.toList, x ∈ gen'.prev_placed.toList) ∧
    gen'.room_stack.length + 1 + gen.prev_placed.toList.length
      = gen.room_stack.length + gen'.prev_placed.toList.length := by
  rcases hs : gen.room_stack with _ | ⟨c, rest⟩
  · rw [MapGenerator.next] at hnext
    rw [hs] at hnext
    exact absurd hnext (by simp)
  · simp only [MapGenerator.next, hs, Option.some_inj, Prod.mk.injEq] at hnext
    obtain ⟨rfl, rfl⟩ := hnext
    have hF0 : FInv gen.width gen.height (O ++ [c.rect]) rest
        gen.prev_placed := by
      refine ⟨hF.wf, hF.tp, hF.tg, ?_, ?_, ?_⟩
      · intro p hp
        refine hF.ss p ?_
        rw [hs]
        exact List.mem_cons_of_mem c hp
      · have hnd := hF.nd
        rw [hs, List.map_cons, List.append_cons] at hnd
        exact hnd
      · intro r hr
        rcases List.mem_append.1 hr with hr | hr
        · exact hF.os r hr
        · rw [List.mem_singleton] at hr
          subst hr
          refine hF.ss c ?_
          rw [hs]
          exact List.mem_cons_self c rest
    obtain ⟨hFc, hmemc, hbalc⟩ :=
      next_placements_master R { gen with room_stack := rest } c
        (O ++ [c.rect]) hF0
    refine ⟨rfl, rfl, hFc, hmemc, ?_⟩
    dsimp only at hbalc
    simp only [List.length_cons]
    omega

/-- Accounting over a whole run: the invariant holds at every point, with the
yielded rectangles appended to `O`, and the number of steps taken balances
stack pops against index insertions. -/
lemma run_master {ρ : Type} (R : Rng ρ) (n : Nat) :
    ∀ (gen : MapGenerator ρ) (O : List Rect),
      FInv gen.width gen.height O gen.room_stack gen.prev_placed →
      (gen.run R n).2.width = gen.width ∧ (gen.run R n).2.height = gen.height ∧
      FInv gen.width gen.height
        (O ++ ((gen.run R n).1).map RoomPlacement.rect)
        (gen.run R n).2.room_stack (gen.run R n).2.prev_placed ∧
      (∀ x ∈ gen.prev_placed.toList, x ∈ (gen.run R n).2.prev_placed.toList) ∧
      (gen.run R n).2.room_stack.length + ((gen.run R n).1).length
          + gen.prev_placed.toList.length
        = gen.room_stack.length + (gen.run R n).2.prev_placed.toList.length := by
  induction n with
  | zero =>
    intro gen O hF
    exact ⟨rfl, rfl, by simpa [MapGenerator.run] using hF, fun x hx => hx,
      by simp [MapGenerator.run]⟩
  | succ n ih =>
    intro gen O hF
    rcases hnext : gen.next R with _ | ⟨p, gen'⟩
    · have e : gen.run R (n + 1) = ([], gen) := by
        simp [MapGenerator.run, hnext]
      rw [e]
      exact ⟨rfl, rfl, by simpa using hF, fun x hx => hx, by simp⟩
    · simp only [MapGenerator.run, hnext]
      obtain ⟨hw, hh, hF', hmem, hbal⟩ := next_master R hF hnext
      have hF'' : FInv gen'.width gen'.height (O ++ [p.rect])
          gen'.room_stack gen'.prev_placed := by
        rw [hw, hh]
        exact hF'
      obtain ⟨gw, gh, gF, gmem, gbal⟩ := ih gen' (O ++ [p.rect]) hF''
      rw [hw, hh] at gF
      refine ⟨by rw [gw, hw], by rw [gh, hh], ?_, fun x hx => gmem x (hmem x hx), ?_⟩
      · rw [List.map_cons, List.append_cons]
        exact gF
      · simp only [List.length_cons]
        omega

lemma run_length_or_empty {ρ : Type} (R : Rng ρ) (n : Nat) :
    ∀ gen : MapGenerator ρ,
      (gen.run R n).1.length = n ∨ (gen.run R n).2.room_stack = [] := by
  induction n with
  | zero => intro gen; exact Or.inl rfl
  | succ n ih =>
    intro gen
    rcases hnext : gen.next R with _ | ⟨p, gen'⟩
    · right
      simp only [MapGenerator.run, hnext]
      exact (next_eq_none_iff R gen).1 hnext
    · simp only [MapGenerator.run, hnext, List.length_cons]
      rcases ih gen' with hl | hr
      · left
        rw [hl]
      · right
        exact hr

/-- The invariant holds right after `MapGenerator::new`. -/
lemma new_FInv {ρ : Type} {w h : Nat} {seed : ρ} {gen : MapGenerator ρ}
    (hnew : MapGenerator.new w h seed = some gen) :
    gen.width = w ∧ gen.height = h ∧
    FInv gen.width gen.height [] gen.room_stack gen.prev_placed := by
  have h10w : first_room.width = 10 := by decide
  have h10h : first_room.height = 10 := by decide
  unfold MapGenerator.new at hnew
  split_ifs at hnew with hc
  · simp only [Option.some_inj] at hnew
    subst hnew
    refine ⟨rfl, rfl, (KDTree.WF.empty 0).add_rect_aux _, ?_, ?_, ?_, ?_, ?_⟩
    · simp [KDTree.add_rect, KDTree.add_rect_aux, KDTree.toList]
    · intro r hr
      simp only [KDTree.add_rect, KDTree.add_rect_aux, KDTree.toList,
        List.append_nil, List.mem_singleton] at hr
      subst hr
      refine ⟨?_, ?_, ?_, ?_, ?_⟩
      · simp only [h10w]; omega
      · simp only [h10w]; omega
      · simp only [h10h]; omega
      · simp only [h10h]; omega
      · rw [overlaps_iff]
        simp only [screenRect, h10w, h10h]
        rw [h10w, h10h] at hc
        refine ⟨?_, ?_, ?_, ?_⟩ <;>
          · push_cast
            have hdx := Nat.div_le_self (w - 10) 2
            have hdy := Nat.div_le_self (h - 10) 2
            omega
    · intro p hp
      rw [List.mem_singleton] at hp
      subst hp
      simp [RoomPlacement.rect, Room.place, KDTree.add_rect,
        KDTree.add_rect_aux, KDTree.toList]
    · simp
    · intro r hr
      exact absurd hr (List.not_mem_nil r)

/-- C3: in every generation run (any constructible bounds, any randomness
source), the bounding rectangles of the placements yielded so far are pairwise
non-overlapping, at every point of the run. -/
theorem yielded_placements_disjoint {ρ : Type} (R : Rng ρ) (w h : Nat)
    (seed : ρ) (gen : MapGenerator ρ)
    (hnew : MapGenerator.new w h seed = some gen) (n : Nat) :
    (((gen.run R n).1).map RoomPlacement.rect).Pairwise
      (fun a b => a.overlaps b = false) := by
  obtain ⟨-, -, hF⟩ := new_FInv hnew
  obtain ⟨-, -, hFn, -, -⟩ := run_master R n gen [] hF
  rw [List.nil_append] at hFn
  have hnd : ((gen.run R n).1.map RoomPlacement.rect).Nodup :=
    (List.nodup_append.1 hFn.nd).1
  refine List.Pairwise.imp_of_mem ?_ hnd
  intro a b ha hb hne
  exact hFn.tp.forall overlaps_false_symmetric (hFn.os a ha) (hFn.os b hb) hne

/-- Witness for C3: a concrete 10×10 run with the identity shuffler. -/
theorem yielded_placements_disjoint_witness :
    MapGenerator.new 10 10 () = some ((MapGenerator.new 10 10 ()).getD genDefault) ∧
    ((((MapGenerator.new 10 10 ()).getD genDefault).run idRng 3).1.map
        RoomPlacement.rect).Pairwise (fun a b => a.overlaps b = false) :=
  ⟨by decide, yielded_placements_disjoint idRng 10 10 ()
    ((MapGenerator.new 10 10 ()).getD genDefault) (by decide) 3⟩

/-- C5: every generation run terminates — after finitely many steps the
pending stack is empty and the step operation reports end-of-sequence. The
index can hold at most `(w + 29) * (h + 29)` pairwise non-overlapping room
rectangles meeting the screen region, every push is matched by a fresh
insertion, and every step pops once. -/
theorem generation_terminates {ρ : Type} (R : Rng ρ) (w h : Nat) (seed : ρ)
    (gen : MapGenerator ρ) (hnew : MapGenerator.new w h seed = some gen) :
    ∃ n, ((gen.run R n).2).room_stack = [] ∧ ((gen.run R n).2).next R = none := by
  obtain ⟨-, -, hF⟩ := new_FInv hnew
  set n := gen.room_stack.length + (gen.width + 29) * (gen.height + 29) + 1
    with hn
  have hempty : ((gen.run R n).2).room_stack = [] := by
    rcases run_length_or_empty R n gen with hlen | hempty
    · exfalso
      obtain ⟨-, -, hFn, -, hbal⟩ := run_master R n gen [] hF
      have hcap : (gen.run R n).2.prev_placed.toList.length ≤
          (gen.width + 29) * (gen.height + 29) :=
        goodRect_list_length_le hFn.tp hFn.tg
      rw [hlen] at hbal
      omega
    · exact hempty
  exact ⟨n, hempty, (next_eq_none_iff R _).mpr hempty⟩

/-- Witness for C5: a concrete 10×10 run with the identity shuffler. -/
theorem generation_terminates_witness :
    MapGenerator.new 10 10 () = some ((MapGenerator.new 10 10 ()).getD genDefault) ∧
    ∃ n, ((((MapGenerator.new 10 10 ()).getD genDefault).run idRng n).2).room_stack = [] ∧
      ((((MapGenerator.new 10 10 ()).getD genDefault).run idRng n).2).next idRng = none :=
  ⟨by decide, generation_terminates idRng 10 10 ()
    ((MapGenerator.new 10 10 ()).getD genDefault) (by decide)⟩

end Dungeon
